import Mathlib

/-!
Shallow embedding of the pricing core of the `quant-playground` repository
(`src/qp/derivatives.py` and its legacy duplicate `src/qp/options.py`),
with theorems checking the natural-language specification against it.

Python floats are modelled as real numbers.  Python exceptions
(`ValueError` raised by validation, `ZeroDivisionError` raised by float
division) are modelled by `Except String`: a function that can raise
returns `Except.error msg` exactly where the Python code raises, and
`Except.ok v` where it returns `v`.  Error strings follow the Python
messages (quotes inside messages are dropped).
-/

namespace QuantPlayground

/-- The normalized option variant.  In the Python source the variant is the
string `"call"` or `"put"`; `derivatives.bs_price` and
`derivatives.binomial_price` lowercase and validate it first, so the rest of
each function only ever sees one of these two values. -/
inductive OptType where
  | call
  | put
deriving DecidableEq

/-- Python `str.lower()` on the variant strings: lowercase every character
(the variant tags are ASCII, where this agrees with Python). -/
def str_lower (s : String) : String := String.mk (s.data.map Char.toLower)

/-- Embeds `derivatives.py` lines 57-59 and 119-121 (identical in both functions):
`option_type = option_type.lower()` followed by membership validation in
the set containing `"call"` and `"put"`. -/
def parse_option_type (s : String) : Except String OptType :=
  let t := str_lower s
  if t = "call" then Except.ok OptType.call
  else if t = "put" then Except.ok OptType.put
  else Except.error "option_type must be call or put"

/-- The error function `math.erf` used by `_norm_cdf`:
`erf x = (2/sqrt pi) * integral of exp (-t^2) from 0 to x`. -/
noncomputable def erf (x : ℝ) : ℝ :=
  (2 / Real.sqrt Real.pi) * ∫ t in (0:ℝ)..x, Real.exp (-t ^ 2)

/-- Helper `_norm_cdf` (identical in `derivatives.py` and `options.py`):
standard normal CDF via the error function. -/
noncomputable def _norm_cdf (x : ℝ) : ℝ :=
  0.5 * (1 + erf (x / Real.sqrt 2.0))

/-- Helper `_d1` (identical in `derivatives.py` and `options.py`). -/
noncomputable def _d1 (S K r q sigma T : ℝ) : ℝ :=
  (Real.log (S / K) + (r - q + 0.5 * sigma * sigma) * T) / (sigma * Real.sqrt T)

/-- Helper `_d2` (identical in `derivatives.py` and `options.py`). -/
noncomputable def _d2 (S K r q sigma T : ℝ) : ℝ :=
  _d1 S K r q sigma T - sigma * Real.sqrt T

/-- Body of `derivatives.bs_price` (lines 61-75), after the variant string
has been normalized and validated to `opt`. -/
noncomputable def bs_price_core (S K r q sigma T : ℝ) (opt : OptType) : ℝ :=
  if T ≤ 0 then
    (if opt = OptType.call then max (S - K) 0 else max (K - S) 0)
  else if sigma ≤ 0 then
    let fwd_disc := S * Real.exp (-q * T) - K * Real.exp (-r * T)
    (if opt = OptType.call then max fwd_disc 0 else max (-fwd_disc) 0)
  else
    let d1 := _d1 S K r q sigma T
    let d2 := _d2 S K r q sigma T
    if opt = OptType.call then
      S * Real.exp (-q * T) * _norm_cdf d1 - K * Real.exp (-r * T) * _norm_cdf d2
    else
      K * Real.exp (-r * T) * _norm_cdf (-d2) - S * Real.exp (-q * T) * _norm_cdf (-d1)

/-- Embeds `derivatives.bs_price` (lines 22-75): normalize/validate the variant
string, then price. -/
noncomputable def bs_price (S K r q sigma T : ℝ) (option_type : String) :
    Except String ℝ :=
  (parse_option_type option_type).map (bs_price_core S K r q sigma T)

/-- Embeds `options.bs_price` (lines 14-42): same branches as
`derivatives.bs_price` but with no lowercasing and no validation of the
variant string; any string other than exactly `"call"` takes the put branch. -/
noncomputable def options_bs_price (S K r q sigma T : ℝ) (option_type : String) : ℝ :=
  if T ≤ 0 then
    (if option_type = "call" then max (S - K) 0 else max (K - S) 0)
  else if sigma ≤ 0 then
    let fwd_disc := S * Real.exp (-q * T) - K * Real.exp (-r * T)
    (if option_type = "call" then max fwd_disc 0 else max (-fwd_disc) 0)
  else
    let d1 := _d1 S K r q sigma T
    let d2 := _d2 S K r q sigma T
    if option_type = "call" then
      S * Real.exp (-q * T) * _norm_cdf d1 - K * Real.exp (-r * T) * _norm_cdf d2
    else
      K * Real.exp (-r * T) * _norm_cdf (-d2) - S * Real.exp (-q * T) * _norm_cdf (-d1)

/-- Embeds `derivatives.parity_bounds` (lines 255-272). -/
noncomputable def parity_bounds (S K r q T : ℝ) : (ℝ × ℝ) × (ℝ × ℝ) :=
  let disc_r := Real.exp (-r * T)
  let disc_q := Real.exp (-q * T)
  let call_lb := max 0 (S * disc_q - K * disc_r)
  let call_ub := S * disc_q
  let put_lb := max 0 (K * disc_r - S * disc_q)
  let put_ub := K * disc_r
  ((call_lb, call_ub), (put_lb, put_ub))

/-! ## CRR binomial lattice

The lattice body is textually identical in `derivatives.binomial_price`
(lines 130-159) and `options.binomial_price` (lines 68-101); it is embedded
once and shared.  The per-level Python list `values` is a `List ℝ`. -/

/-- The immediate-exercise payoff `max(spot - K, 0)` / `max(K - spot, 0)`
used both for terminal payoffs and for the American early-exercise check. -/
noncomputable def payoff (K spot : ℝ) (opt : OptType) : ℝ :=
  if opt = OptType.call then max (spot - K) 0 else max (K - spot) 0

/-- Terminal payoffs (`derivatives.py` lines 139-143): node `j` of level
`steps` has spot `S * u^j * d^(steps-j)`. -/
noncomputable def termVals (S K u d : ℝ) (opt : OptType) (steps : ℕ) : List ℝ :=
  (List.range (steps + 1)).map (fun j => payoff K (S * u ^ j * d ^ (steps - j)) opt)

/-- One backward-induction level (`derivatives.py` lines 146-157): from the
`values` list of level `n+1`, build the list of level `n` (indices
`j = 0..n`).  `values[j]` is read as `values.getD j 0`. -/
noncomputable def bstep (disc p S K u d : ℝ) (opt : OptType) (american : Bool)
    (n : ℕ) (values : List ℝ) : List ℝ :=
  (List.range (n + 1)).map (fun j =>
    let cont := disc * (p * values.getD (j + 1) 0 + (1 - p) * values.getD j 0)
    if american then max cont (payoff K (S * u ^ j * d ^ (n - j)) opt)
    else cont)

/-- The backward-induction loop `for n in range(steps-1, -1, -1)`:
`backInduct disc p S K u d opt american m values` applies `bstep` at levels
`m-1, m-2, ..., 0` starting from the level-`m` list `values`. -/
noncomputable def backInduct (disc p S K u d : ℝ) (opt : OptType) (american : Bool) :
    ℕ → List ℝ → List ℝ
  | 0, values => values
  | n + 1, values =>
      backInduct disc p S K u d opt american n (bstep disc p S K u d opt american n values)

/-- The lattice body shared by both `binomial_price` implementations
(`derivatives.py` lines 130-159), entered with `T > 0`: parameters `dt`,
`u`, `d`, `disc`, the clamped risk-neutral probability `p`, terminal
payoffs, backward induction, and `values[0]` as the result.  The guard on
`u - d = 0` models Python's `ZeroDivisionError` when computing `p` (it
fires exactly when `sigma = 0`, since `T > 0` there). -/
noncomputable def crr_lattice (S K r q sigma T : ℝ) (steps : ℕ) (opt : OptType)
    (american : Bool) : Except String ℝ :=
  let dt := T / (steps : ℝ)
  let u := Real.exp (sigma * Real.sqrt dt)
  let d := 1 / u
  if u - d = 0 then Except.error "float division by zero"
  else
    let disc := Real.exp (-r * dt)
    let p0 := (Real.exp ((r - q) * dt) - d) / (u - d)
    let p := if 0 ≤ p0 ∧ p0 ≤ 1 then p0 else min 1 (max 0 p0)
    Except.ok ((backInduct disc p S K u d opt american steps
      (termVals S K u d opt steps)).getD 0 0)

/-- Embeds `derivatives.binomial_price` (lines 78-159): variant normalization and
validation, `steps` and `sigma` validation, the `T <= 0` intrinsic
shortcut, then the lattice. -/
noncomputable def binomial_price (S K r q sigma T : ℝ) (steps : ℕ)
    (option_type : String) (american : Bool) : Except String ℝ :=
  match parse_option_type option_type with
  | Except.error e => Except.error e
  | Except.ok opt =>
    if steps < 1 then Except.error "steps must be >= 1"
    else if sigma < 0 then Except.error "sigma must be >= 0"
    else if T ≤ 0 then Except.ok (payoff K S opt)
    else crr_lattice S K r q sigma T steps opt american

/-- Embeds `options.binomial_price` (lines 46-101): no variant validation (any
string other than exactly `"call"` prices as a put), and the `sigma` check
comes only after the `T <= 0` intrinsic shortcut. -/
noncomputable def options_binomial_price (S K r q sigma T : ℝ) (steps : ℕ)
    (option_type : String) (american : Bool) : Except String ℝ :=
  let opt := if option_type = "call" then OptType.call else OptType.put
  if steps < 1 then Except.error "steps must be >= 1"
  else if T ≤ 0 then Except.ok (payoff K S opt)
  else if sigma < 0 then Except.error "sigma must be >= 0"
  else crr_lattice S K r q sigma T steps opt american

/-! Basic facts about the embedded primitives. -/

lemma erf_neg (x : ℝ) : erf (-x) = - erf x := by
  unfold erf
  have h : (∫ t in (0:ℝ)..(-x), Real.exp (-t ^ 2)) =
      - ∫ t in (0:ℝ)..x, Real.exp (-t ^ 2) := by
    have h1 : (∫ t in (0:ℝ)..x, Real.exp (-(-t) ^ 2)) =
        ∫ t in (-x)..(-(0:ℝ)), Real.exp (-t ^ 2) :=
      intervalIntegral.integral_comp_neg (fun t => Real.exp (-t ^ 2))
    simp only [neg_sq, neg_zero] at h1
    rw [intervalIntegral.integral_symm]
    rw [← h1]
  rw [h]; ring

lemma norm_cdf_add_neg (x : ℝ) : _norm_cdf x + _norm_cdf (-x) = 1 := by
  unfold _norm_cdf
  have h : erf (-x / Real.sqrt 2.0) = - erf (x / Real.sqrt 2.0) := by
    rw [neg_div]; exact erf_neg _
  rw [h]; ring

lemma parse_option_type_call : parse_option_type "call" = Except.ok OptType.call := by
  rfl

lemma parse_option_type_put : parse_option_type "put" = Except.ok OptType.put := by
  rfl

lemma payoff_nonneg (K spot : ℝ) (opt : OptType) : 0 ≤ payoff K spot opt := by
  unfold payoff
  split <;> exact le_max_right _ _

/-! ## Indexed access to the lattice levels -/

lemma getD_range_map (f : ℕ → ℝ) (n j : ℕ) (hj : j < n) :
    ((List.range n).map f).getD j 0 = f j := by
  rw [List.getD_eq_getElem _ _ (by simpa using hj)]
  simp

lemma bstep_getD_euro (disc p S K u d : ℝ) (opt : OptType) (n : ℕ) (values : List ℝ)
    (j : ℕ) (hj : j ≤ n) :
    (bstep disc p S K u d opt false n values).getD j 0 =
      disc * (p * values.getD (j + 1) 0 + (1 - p) * values.getD j 0) := by
  unfold bstep
  rw [getD_range_map _ _ _ (Nat.lt_succ_of_le hj)]
  simp

lemma bstep_getD_amer (disc p S K u d : ℝ) (opt : OptType) (n : ℕ) (values : List ℝ)
    (j : ℕ) (hj : j ≤ n) :
    (bstep disc p S K u d opt true n values).getD j 0 =
      max (disc * (p * values.getD (j + 1) 0 + (1 - p) * values.getD j 0))
        (payoff K (S * u ^ j * d ^ (n - j)) opt) := by
  unfold bstep
  rw [getD_range_map _ _ _ (Nat.lt_succ_of_le hj)]
  simp

lemma termVals_getD (S K u d : ℝ) (opt : OptType) (steps j : ℕ) (hj : j ≤ steps) :
    (termVals S K u d opt steps).getD j 0 =
      payoff K (S * u ^ j * d ^ (steps - j)) opt := by
  unfold termVals
  rw [getD_range_map _ _ _ (Nat.lt_succ_of_le hj)]

/-! ## Nonnegativity of the backward induction -/

/-- Every entry read from the level list (including the `getD` default) is
nonnegative. -/
def nonnegList (values : List ℝ) : Prop := ∀ j, 0 ≤ values.getD j 0

lemma termVals_nonneg (S K u d : ℝ) (opt : OptType) (steps : ℕ) :
    nonnegList (termVals S K u d opt steps) := by
  intro j
  rcases le_or_lt j steps with hj | hj
  · rw [termVals_getD _ _ _ _ _ _ _ hj]
    exact payoff_nonneg _ _ _
  · rw [List.getD_eq_default]
    simp [termVals]
    omega

lemma bstep_nonneg (disc p S K u d : ℝ) (opt : OptType) (american : Bool) (n : ℕ)
    (values : List ℝ) (hp0 : 0 ≤ p) (hp1 : p ≤ 1) (hdisc : 0 ≤ disc)
    (h : nonnegList values) :
    nonnegList (bstep disc p S K u d opt american n values) := by
  intro j
  rcases le_or_lt j n with hj | hj
  · have hcont : 0 ≤ disc * (p * values.getD (j + 1) 0 + (1 - p) * values.getD j 0) := by
      apply mul_nonneg hdisc
      have h1 := h (j + 1)
      have h2 := h j
      nlinarith
    cases american
    · rw [bstep_getD_euro _ _ _ _ _ _ _ _ _ _ hj]
      exact hcont
    · rw [bstep_getD_amer _ _ _ _ _ _ _ _ _ _ hj]
      exact le_trans hcont (le_max_left _ _)
  · rw [List.getD_eq_default]
    simp [bstep]
    omega

lemma backInduct_nonneg (disc p S K u d : ℝ) (opt : OptType) (american : Bool)
    (hp0 : 0 ≤ p) (hp1 : p ≤ 1) (hdisc : 0 ≤ disc) :
    ∀ (n : ℕ) (values : List ℝ), nonnegList values →
      nonnegList (backInduct disc p S K u d opt american n values) := by
  intro n
  induction n with
  | zero => intro values h; exact h
  | succ n ih =>
      intro values h
      exact ih _ (bstep_nonneg _ _ _ _ _ _ _ _ _ _ hp0 hp1 hdisc h)

/-! ## No early-exercise premium for a call

The classical argument, carried out on the embedded lattice: if at some
level every node value dominates the immediate-exercise call payoff, then
every continuation value at the level below does too, so the American `max`
never picks the exercise branch; by downward induction the American and
European runs coincide.  The argument needs `p ∈ [0,1]` (no clamp),
`0 < disc ≤ 1` and `1 ≤ disc * (p*u + (1-p)*d)`, which hold for `q = 0`,
`r ≥ 0` when the risk-neutral probability is not clamped. -/

/-- At level `n`, every node value dominates the immediate call payoff. -/
def callDom (S K u d : ℝ) (n : ℕ) (values : List ℝ) : Prop :=
  ∀ j ≤ n, payoff K (S * u ^ j * d ^ (n - j)) OptType.call ≤ values.getD j 0

lemma termVals_callDom (S K u d : ℝ) (steps : ℕ) :
    callDom S K u d steps (termVals S K u d OptType.call steps) := by
  intro j hj
  rw [termVals_getD _ _ _ _ _ _ _ hj]

/-- Key inequality: a continuation value backed by call-payoff-dominating
children dominates the call payoff at the parent node. -/
lemma cont_ge_call_payoff (disc p u d K X A B : ℝ)
    (hp0 : 0 ≤ p) (hp1 : p ≤ 1) (hdisc0 : 0 < disc) (hdisc1 : disc ≤ 1)
    (hK : 0 ≤ K) (hX : 0 ≤ X) (hgrowth : 1 ≤ disc * (p * u + (1 - p) * d))
    (hA : max (X * u - K) 0 ≤ A) (hB : max (X * d - K) 0 ≤ B) :
    max (X - K) 0 ≤ disc * (p * A + (1 - p) * B) := by
  have hA1 : X * u - K ≤ A := le_trans (le_max_left _ _) hA
  have hA0 : (0:ℝ) ≤ A := le_trans (le_max_right _ _) hA
  have hB1 : X * d - K ≤ B := le_trans (le_max_left _ _) hB
  have hB0 : (0:ℝ) ≤ B := le_trans (le_max_right _ _) hB
  apply max_le
  · have hmono : disc * (p * (X * u - K) + (1 - p) * (X * d - K)) ≤
        disc * (p * A + (1 - p) * B) := by
      apply mul_le_mul_of_nonneg_left _ hdisc0.le
      have h1 : p * (X * u - K) ≤ p * A := mul_le_mul_of_nonneg_left hA1 hp0
      have h2 : (1 - p) * (X * d - K) ≤ (1 - p) * B :=
        mul_le_mul_of_nonneg_left hB1 (by linarith)
      linarith
    have hexp : disc * (p * (X * u - K) + (1 - p) * (X * d - K)) =
        X * (disc * (p * u + (1 - p) * d)) - disc * K := by ring
    have hXg : X * 1 ≤ X * (disc * (p * u + (1 - p) * d)) :=
      mul_le_mul_of_nonneg_left hgrowth hX
    have hdK : disc * K ≤ K := by nlinarith
    rw [hexp] at hmono
    linarith
  · have h1 : 0 ≤ p * A := mul_nonneg hp0 hA0
    have h2 : 0 ≤ (1 - p) * B := mul_nonneg (by linarith) hB0
    exact mul_nonneg hdisc0.le (by linarith)

/-- The level-`n` continuation values inherit call-payoff dominance from
level `n+1`. -/
lemma cont_callDom (disc p S K u d : ℝ) (n : ℕ) (values : List ℝ)
    (hp0 : 0 ≤ p) (hp1 : p ≤ 1) (hdisc0 : 0 < disc) (hdisc1 : disc ≤ 1)
    (hK : 0 ≤ K) (hS : 0 ≤ S) (hu : 0 ≤ u) (hd : 0 ≤ d)
    (hgrowth : 1 ≤ disc * (p * u + (1 - p) * d))
    (h : callDom S K u d (n + 1) values) (j : ℕ) (hj : j ≤ n) :
    payoff K (S * u ^ j * d ^ (n - j)) OptType.call ≤
      disc * (p * values.getD (j + 1) 0 + (1 - p) * values.getD j 0) := by
  have hA := h (j + 1) (by omega)
  have hB := h j (by omega)
  have e1 : n + 1 - (j + 1) = n - j := by omega
  have e2 : n + 1 - j = (n - j) + 1 := by omega
  rw [e1] at hA
  rw [e2] at hB
  have eA : S * u ^ (j + 1) * d ^ (n - j) = (S * u ^ j * d ^ (n - j)) * u := by
    rw [pow_succ]; ring
  have eB : S * u ^ j * d ^ ((n - j) + 1) = (S * u ^ j * d ^ (n - j)) * d := by
    rw [pow_succ]; ring
  rw [eA] at hA
  rw [eB] at hB
  have hX : 0 ≤ S * u ^ j * d ^ (n - j) :=
    mul_nonneg (mul_nonneg hS (pow_nonneg hu _)) (pow_nonneg hd _)
  simp only [payoff, if_pos rfl] at hA hB ⊢
  exact cont_ge_call_payoff disc p u d K _ _ _ hp0 hp1 hdisc0 hdisc1 hK hX hgrowth hA hB

lemma bstep_amer_eq_euro (disc p S K u d : ℝ) (n : ℕ) (values : List ℝ)
    (hp0 : 0 ≤ p) (hp1 : p ≤ 1) (hdisc0 : 0 < disc) (hdisc1 : disc ≤ 1)
    (hK : 0 ≤ K) (hS : 0 ≤ S) (hu : 0 ≤ u) (hd : 0 ≤ d)
    (hgrowth : 1 ≤ disc * (p * u + (1 - p) * d))
    (h : callDom S K u d (n + 1) values) :
    bstep disc p S K u d OptType.call true n values =
      bstep disc p S K u d OptType.call false n values := by
  unfold bstep
  apply List.map_congr_left
  intro j hjmem
  have hj : j ≤ n := by
    have := List.mem_range.mp hjmem
    omega
  simp only [if_pos rfl, Bool.false_eq_true, if_false, if_true]
  exact max_eq_left (cont_callDom disc p S K u d n values hp0 hp1 hdisc0 hdisc1
    hK hS hu hd hgrowth h j hj)

lemma bstep_preserves_callDom (disc p S K u d : ℝ) (n : ℕ) (values : List ℝ)
    (hp0 : 0 ≤ p) (hp1 : p ≤ 1) (hdisc0 : 0 < disc) (hdisc1 : disc ≤ 1)
    (hK : 0 ≤ K) (hS : 0 ≤ S) (hu : 0 ≤ u) (hd : 0 ≤ d)
    (hgrowth : 1 ≤ disc * (p * u + (1 - p) * d))
    (h : callDom S K u d (n + 1) values) :
    callDom S K u d n (bstep disc p S K u d OptType.call false n values) := by
  intro j hj
  rw [bstep_getD_euro _ _ _ _ _ _ _ _ _ _ hj]
  exact cont_callDom disc p S K u d n values hp0 hp1 hdisc0 hdisc1
    hK hS hu hd hgrowth h j hj

/-- Main lemma: starting from a call-payoff-dominating level, the American
and European backward inductions produce the same lists. -/
lemma backInduct_amer_eq_euro (disc p S K u d : ℝ)
    (hp0 : 0 ≤ p) (hp1 : p ≤ 1) (hdisc0 : 0 < disc) (hdisc1 : disc ≤ 1)
    (hK : 0 ≤ K) (hS : 0 ≤ S) (hu : 0 ≤ u) (hd : 0 ≤ d)
    (hgrowth : 1 ≤ disc * (p * u + (1 - p) * d)) :
    ∀ (n : ℕ) (values : List ℝ), callDom S K u d n values →
      backInduct disc p S K u d OptType.call true n values =
        backInduct disc p S K u d OptType.call false n values := by
  intro n
  induction n with
  | zero => intro values _; rfl
  | succ n ih =>
      intro values h
      show backInduct disc p S K u d OptType.call true n
          (bstep disc p S K u d OptType.call true n values) = _
      rw [bstep_amer_eq_euro disc p S K u d n values hp0 hp1 hdisc0 hdisc1
        hK hS hu hd hgrowth h]
      exact ih _ (bstep_preserves_callDom disc p S K u d n values hp0 hp1 hdisc0 hdisc1
        hK hS hu hd hgrowth h)

/-! ## Reduction lemmas for the embedded entry points -/

lemma bs_price_parsed (S K r q sigma T : ℝ) (s : String) (opt : OptType)
    (h : parse_option_type s = Except.ok opt) :
    bs_price S K r q sigma T s = Except.ok (bs_price_core S K r q sigma T opt) := by
  unfold bs_price
  rw [h]
  rfl

lemma bs_price_parse_error (S K r q sigma T : ℝ) (s : String) (e : String)
    (h : parse_option_type s = Except.error e) :
    bs_price S K r q sigma T s = Except.error e := by
  unfold bs_price
  rw [h]
  rfl

lemma binomial_price_parsed (S K r q sigma T : ℝ) (steps : ℕ) (s : String)
    (opt : OptType) (american : Bool) (h : parse_option_type s = Except.ok opt) :
    binomial_price S K r q sigma T steps s american =
      (if steps < 1 then Except.error "steps must be >= 1"
       else if sigma < 0 then Except.error "sigma must be >= 0"
       else if T ≤ 0 then Except.ok (payoff K S opt)
       else crr_lattice S K r q sigma T steps opt american) := by
  unfold binomial_price
  rw [h]

lemma bs_price_core_expiry (S K r q sigma T : ℝ) (opt : OptType) (hT : T ≤ 0) :
    bs_price_core S K r q sigma T opt =
      (if opt = OptType.call then max (S - K) 0 else max (K - S) 0) := by
  unfold bs_price_core
  rw [if_pos hT]

lemma bs_price_core_zero_vol (S K r q sigma T : ℝ) (opt : OptType)
    (hT : ¬ T ≤ 0) (hs : sigma ≤ 0) :
    bs_price_core S K r q sigma T opt =
      (if opt = OptType.call
       then max (S * Real.exp (-q * T) - K * Real.exp (-r * T)) 0
       else max (-(S * Real.exp (-q * T) - K * Real.exp (-r * T))) 0) := by
  unfold bs_price_core
  rw [if_neg hT, if_pos hs]

lemma bs_price_core_formula (S K r q sigma T : ℝ) (opt : OptType)
    (hT : ¬ T ≤ 0) (hs : ¬ sigma ≤ 0) :
    bs_price_core S K r q sigma T opt =
      (if opt = OptType.call
       then S * Real.exp (-q * T) * _norm_cdf (_d1 S K r q sigma T) -
         K * Real.exp (-r * T) * _norm_cdf (_d2 S K r q sigma T)
       else K * Real.exp (-r * T) * _norm_cdf (-(_d2 S K r q sigma T)) -
         S * Real.exp (-q * T) * _norm_cdf (-(_d1 S K r q sigma T))) := by
  unfold bs_price_core
  rw [if_neg hT, if_neg hs]

/-- The clamped risk-neutral probability always lies in `[0, 1]`. -/
lemma clamp_mem_unit (p0 : ℝ) :
    0 ≤ (if 0 ≤ p0 ∧ p0 ≤ 1 then p0 else min 1 (max 0 p0)) ∧
      (if 0 ≤ p0 ∧ p0 ≤ 1 then p0 else min 1 (max 0 p0)) ≤ 1 := by
  split_ifs with h
  · exact h
  · exact ⟨le_min (by norm_num) (le_max_left 0 p0), min_le_left _ _⟩

lemma max_sub_max_neg (a : ℝ) : max a 0 - max (-a) 0 = a := by
  rcases le_total a 0 with h | h
  · rw [max_eq_right h, max_eq_left (by linarith)]
    ring
  · rw [max_eq_left h, max_eq_right (by linarith)]
    ring

/-! ## Claim theorems -/

/-- C7: for every `S>0`, `K>0` and any `r`, `q`, `sigma`, whenever `T<=0`,
`bs_price` returns exactly the intrinsic value `max(S-K,0)` for a call and
`max(K-S,0)` for a put, independent of `r`, `q` and `sigma`. -/
theorem bs_price_expiry_intrinsic (S K r q sigma T : ℝ)
    (hS : 0 < S) (hK : 0 < K) (hT : T ≤ 0) :
    bs_price S K r q sigma T "call" = Except.ok (max (S - K) 0) ∧
    bs_price S K r q sigma T "put" = Except.ok (max (K - S) 0) := by
  constructor
  · rw [bs_price_parsed _ _ _ _ _ _ _ _ parse_option_type_call,
      bs_price_core_expiry _ _ _ _ _ _ _ hT]
    simp
  · rw [bs_price_parsed _ _ _ _ _ _ _ _ parse_option_type_put,
      bs_price_core_expiry _ _ _ _ _ _ _ hT]
    simp

theorem bs_price_expiry_intrinsic_witness :
    bs_price 2 1 0 0 1 0 "call" = Except.ok (max (2 - 1) 0) ∧
    bs_price 2 1 0 0 1 0 "put" = Except.ok (max (1 - 2) 0) :=
  bs_price_expiry_intrinsic 2 1 0 0 1 0 (by norm_num) (by norm_num) (by norm_num)

/-- C6: for every `S>0`, `K>0`, `T>0`, `sigma<=0` and any `r`, `q`,
`bs_price` returns the riskless limit `max(S*e^{-qT} - K*e^{-rT}, 0)` for a
call and `max(K*e^{-rT} - S*e^{-qT}, 0)` for a put. -/
theorem bs_price_zero_vol_forward_intrinsic (S K r q sigma T : ℝ)
    (hS : 0 < S) (hK : 0 < K) (hT : 0 < T) (hs : sigma ≤ 0) :
    bs_price S K r q sigma T "call" =
      Except.ok (max (S * Real.exp (-q * T) - K * Real.exp (-r * T)) 0) ∧
    bs_price S K r q sigma T "put" =
      Except.ok (max (K * Real.exp (-r * T) - S * Real.exp (-q * T)) 0) := by
  constructor
  · rw [bs_price_parsed _ _ _ _ _ _ _ _ parse_option_type_call,
      bs_price_core_zero_vol _ _ _ _ _ _ _ (not_le.mpr hT) hs]
    simp
  · rw [bs_price_parsed _ _ _ _ _ _ _ _ parse_option_type_put,
      bs_price_core_zero_vol _ _ _ _ _ _ _ (not_le.mpr hT) hs]
    rw [neg_sub]
    simp

theorem bs_price_zero_vol_forward_intrinsic_witness :
    bs_price 100 90 0.02 0 0 1 "call" =
      Except.ok (max (100 * Real.exp (-0 * 1) - 90 * Real.exp (-0.02 * 1)) 0) ∧
    bs_price 100 90 0.02 0 0 1 "put" =
      Except.ok (max (90 * Real.exp (-0.02 * 1) - 100 * Real.exp (-0 * 1)) 0) :=
  bs_price_zero_vol_forward_intrinsic 100 90 0.02 0 0 1
    (by norm_num) (by norm_num) (by norm_num) (by norm_num)

/-- C8: `parity_bounds` returns exactly the static no-arbitrage bounds
computed from the inputs alone. -/
theorem parity_bounds_closed_form (S K r q T : ℝ) :
    parity_bounds S K r q T =
      ((max 0 (S * Real.exp (-q * T) - K * Real.exp (-r * T)), S * Real.exp (-q * T)),
       (max 0 (K * Real.exp (-r * T) - S * Real.exp (-q * T)), K * Real.exp (-r * T))) :=
  rfl

/-- C1: put-call parity of the analytic engine, exact in the real-number
embedding, for every `S>0`, `K>0`, `T>0`, `sigma>=0` and any `r`, `q`,
covering both the `sigma<=0` branch and the `sigma>0` closed-form branch. -/
theorem bs_put_call_parity (S K r q sigma T c p : ℝ)
    (hS : 0 < S) (hK : 0 < K) (hT : 0 < T) (hs : 0 ≤ sigma)
    (hc : bs_price S K r q sigma T "call" = Except.ok c)
    (hp : bs_price S K r q sigma T "put" = Except.ok p) :
    c - p = S * Real.exp (-q * T) - K * Real.exp (-r * T) := by
  rw [bs_price_parsed _ _ _ _ _ _ _ _ parse_option_type_call] at hc
  rw [bs_price_parsed _ _ _ _ _ _ _ _ parse_option_type_put] at hp
  injection hc with hc
  injection hp with hp
  rw [← hc, ← hp]
  by_cases hσ : sigma ≤ 0
  · rw [bs_price_core_zero_vol _ _ _ _ _ _ _ (not_le.mpr hT) hσ,
      bs_price_core_zero_vol _ _ _ _ _ _ _ (not_le.mpr hT) hσ]
    rw [if_pos rfl, if_neg (by decide : ¬ OptType.put = OptType.call)]
    exact max_sub_max_neg _
  · rw [bs_price_core_formula _ _ _ _ _ _ _ (not_le.mpr hT) hσ,
      bs_price_core_formula _ _ _ _ _ _ _ (not_le.mpr hT) hσ]
    rw [if_pos rfl, if_neg (by decide : ¬ OptType.put = OptType.call)]
    have h1 := norm_cdf_add_neg (_d1 S K r q sigma T)
    have h2 := norm_cdf_add_neg (_d2 S K r q sigma T)
    linear_combination (S * Real.exp (-q * T)) * h1 - (K * Real.exp (-r * T)) * h2

theorem bs_put_call_parity_witness :
    bs_price_core 1 1 0 0 1 1 OptType.call - bs_price_core 1 1 0 0 1 1 OptType.put =
      1 * Real.exp (-0 * 1) - 1 * Real.exp (-0 * 1) :=
  bs_put_call_parity 1 1 0 0 1 1 _ _ (by norm_num) (by norm_num) (by norm_num)
    (by norm_num)
    (bs_price_parsed 1 1 0 0 1 1 "call" OptType.call parse_option_type_call)
    (bs_price_parsed 1 1 0 0 1 1 "put" OptType.put parse_option_type_put)

/-- C3 counterexample: with `sigma = -1 < 0` (and `S=K=1`, `r=q=0`, `T=1`),
`bs_price` does not raise a validation error: it returns the computed value
`0` from the `sigma<=0` discounted-forward-intrinsic branch. -/
theorem bs_price_negative_sigma_counterexample :
    bs_price 1 1 0 0 (-1) 1 "call" = Except.ok 0 := by
  rw [bs_price_parsed _ _ _ _ _ _ _ _ parse_option_type_call,
    bs_price_core_zero_vol _ _ _ _ _ _ _ (by norm_num) (by norm_num)]
  norm_num [Real.exp_zero]

/-- C3 amended: `bs_price` performs no `sigma` validation at all; for
`sigma < 0` and `T > 0` it falls into the `sigma<=0` forward-intrinsic
branch and returns its value, while `binomial_price` does validate
`sigma >= 0` and raises. -/
theorem bs_price_no_sigma_validation (S K r q sigma T : ℝ) (steps : ℕ)
    (hS : 0 < S) (hK : 0 < K) (hT : 0 < T) (hs : sigma < 0) (hsteps : 1 ≤ steps) :
    bs_price S K r q sigma T "call" =
      Except.ok (max (S * Real.exp (-q * T) - K * Real.exp (-r * T)) 0) ∧
    binomial_price S K r q sigma T steps "call" false =
      Except.error "sigma must be >= 0" := by
  constructor
  · rw [bs_price_parsed _ _ _ _ _ _ _ _ parse_option_type_call,
      bs_price_core_zero_vol _ _ _ _ _ _ _ (not_le.mpr hT) hs.le]
    simp
  · rw [binomial_price_parsed _ _ _ _ _ _ _ _ _ _ parse_option_type_call]
    rw [if_neg (by omega : ¬ steps < 1), if_pos hs]

theorem bs_price_no_sigma_validation_witness :
    bs_price 1 1 0 0 (-1) 1 "call" =
      Except.ok (max (1 * Real.exp (-0 * 1) - 1 * Real.exp (-0 * 1)) 0) ∧
    binomial_price 1 1 0 0 (-1) 1 1 "call" false =
      Except.error "sigma must be >= 0" :=
  bs_price_no_sigma_validation 1 1 0 0 (-1) 1 1 (by norm_num) (by norm_num)
    (by norm_num) (by norm_num) (by norm_num)

/-- C4 counterexample: `options.binomial_price` with `sigma = -1 < 0` and
`T = 0` returns the intrinsic value `1` instead of raising: its `sigma`
check sits after the `T<=0` shortcut. -/
theorem options_binomial_sigma_after_shortcut_counterexample :
    options_binomial_price 2 1 0 0 (-1) 0 1 "call" false = Except.ok 1 := by
  simp only [options_binomial_price]
  rw [if_neg (by norm_num : ¬ (1:ℕ) < 1), if_pos (le_refl (0:ℝ))]
  norm_num [payoff]

/-- C4 amended: `derivatives.binomial_price` validates `steps>=1` and
`sigma>=0` before the `T<=0` intrinsic shortcut, so `sigma<0` raises even
when `T<=0` (and `steps=0` always raises); in `options.binomial_price` the
`sigma` check comes only after the `T<=0` shortcut, so `sigma<0` with
`T<=0` returns the intrinsic value there. -/
theorem binomial_validation_before_shortcut (S K r q sigma T : ℝ) (steps : ℕ)
    (amer : Bool) (hs : sigma < 0) (hsteps : 1 ≤ steps) (hT : T ≤ 0) :
    binomial_price S K r q sigma T steps "call" amer =
      Except.error "sigma must be >= 0" ∧
    binomial_price S K r q sigma T 0 "call" amer =
      Except.error "steps must be >= 1" ∧
    options_binomial_price S K r q sigma T steps "call" amer =
      Except.ok (max (S - K) 0) := by
  refine ⟨?_, ?_, ?_⟩
  · rw [binomial_price_parsed _ _ _ _ _ _ _ _ _ _ parse_option_type_call]
    rw [if_neg (by omega : ¬ steps < 1), if_pos hs]
  · rw [binomial_price_parsed _ _ _ _ _ _ _ _ _ _ parse_option_type_call]
    rw [if_pos (by norm_num : (0:ℕ) < 1)]
  · simp only [options_binomial_price]
    rw [if_neg (by omega : ¬ steps < 1), if_pos hT]
    norm_num [payoff]

theorem binomial_validation_before_shortcut_witness :
    binomial_price 2 1 0 0 (-1) 0 1 "call" false =
      Except.error "sigma must be >= 0" ∧
    binomial_price 2 1 0 0 (-1) 0 0 "call" false =
      Except.error "steps must be >= 1" ∧
    options_binomial_price 2 1 0 0 (-1) 0 1 "call" false =
      Except.ok (max (2 - 1) 0) :=
  binomial_validation_before_shortcut 2 1 0 0 (-1) 0 1 false (by norm_num)
    (by norm_num) (by norm_num)

/-- C5 counterexample: `options.bs_price` is not case-insensitive and never
raises: at `S=2`, `K=1`, `T=0` it prices `"CALL"` as a put, returning `0`,
while `"call"` returns the call intrinsic `1`. -/
theorem options_bs_price_case_sensitivity_counterexample :
    options_bs_price 2 1 0 0 0 0 "CALL" = 0 ∧
    options_bs_price 2 1 0 0 0 0 "call" = 1 := by
  constructor
  · simp only [options_bs_price]
    rw [if_pos (le_refl (0:ℝ)), if_neg (by decide : ¬ "CALL" = "call")]
    norm_num
  · simp only [options_bs_price]
    rw [if_pos (le_refl (0:ℝ)), if_true, max_eq_left (by norm_num : (0:ℝ) ≤ 2 - 1)]
    norm_num

/-- C5 amended: `derivatives.bs_price` accepts the variant case-insensitively,
pricing `v` exactly as `lowercase(v)` when the latter is `"call"` or `"put"`
and raising the validation error otherwise; `options.bs_price` does no
normalization and no validation: any variant other than exactly `"call"`
is silently priced as a put. -/
theorem bs_price_variant_handling (S K r q sigma T : ℝ) (v : String) :
    bs_price S K r q sigma T v =
      (if str_lower v = "call" ∨ str_lower v = "put"
       then bs_price S K r q sigma T (str_lower v)
       else Except.error "option_type must be call or put") ∧
    options_bs_price S K r q sigma T v =
      options_bs_price S K r q sigma T (if v = "call" then "call" else "put") := by
  constructor
  · by_cases h1 : str_lower v = "call"
    · rw [if_pos (Or.inl h1), h1]
      have hv : parse_option_type v = Except.ok OptType.call := by
        simp only [parse_option_type]
        rw [if_pos h1]
      rw [bs_price_parsed _ _ _ _ _ _ _ _ hv,
        bs_price_parsed _ _ _ _ _ _ _ _ parse_option_type_call]
    · by_cases h2 : str_lower v = "put"
      · rw [if_pos (Or.inr h2), h2]
        have hv : parse_option_type v = Except.ok OptType.put := by
          simp only [parse_option_type]
          rw [if_neg h1, if_pos h2]
        rw [bs_price_parsed _ _ _ _ _ _ _ _ hv,
          bs_price_parsed _ _ _ _ _ _ _ _ parse_option_type_put]
      · rw [if_neg (by tauto)]
        apply bs_price_parse_error
        simp only [parse_option_type]
        rw [if_neg h1, if_neg h2]
  · by_cases hv : v = "call"
    · rw [if_pos hv, hv]
    · rw [if_neg hv]
      simp [options_bs_price, hv]

/-- C9: the duplicated pricing implementations agree on identical arguments
when the variant is given exactly as the lowercase string `"call"` or
`"put"`: `options.bs_price` equals the value inside `derivatives.bs_price`,
and `options.binomial_price` equals `derivatives.binomial_price`. -/
theorem duplicate_modules_agree (S K r q sigma T : ℝ) (steps : ℕ) (amer : Bool)
    (ot : String) (hot : ot = "call" ∨ ot = "put") (hS : 0 < S) (hK : 0 < K)
    (hs : 0 ≤ sigma) (hsteps : 1 ≤ steps) :
    bs_price S K r q sigma T ot = Except.ok (options_bs_price S K r q sigma T ot) ∧
    binomial_price S K r q sigma T steps ot amer =
      options_binomial_price S K r q sigma T steps ot amer := by
  have hst : ¬ steps < 1 := by omega
  have hsg : ¬ sigma < 0 := not_lt.mpr hs
  have hpc : ¬ "put" = "call" := by decide
  rcases hot with h | h <;> subst h
  · constructor
    · rw [bs_price_parsed _ _ _ _ _ _ _ _ parse_option_type_call]
      unfold bs_price_core options_bs_price
      by_cases hT : T ≤ 0 <;> by_cases hσ : sigma ≤ 0 <;> simp [hT, hσ]
    · rw [binomial_price_parsed _ _ _ _ _ _ _ _ _ _ parse_option_type_call]
      by_cases hT : T ≤ 0 <;> simp [options_binomial_price, hst, hsg, hT]
  · constructor
    · rw [bs_price_parsed _ _ _ _ _ _ _ _ parse_option_type_put]
      unfold bs_price_core options_bs_price
      by_cases hT : T ≤ 0 <;> by_cases hσ : sigma ≤ 0 <;> simp [hT, hσ, hpc]
    · rw [binomial_price_parsed _ _ _ _ _ _ _ _ _ _ parse_option_type_put]
      by_cases hT : T ≤ 0 <;> simp [options_binomial_price, hst, hsg, hT, hpc]

theorem duplicate_modules_agree_witness :
    (bs_price 2 1 0 0 1 1 "call" = Except.ok (options_bs_price 2 1 0 0 1 1 "call") ∧
     binomial_price 2 1 0 0 1 1 1 "call" false =
       options_binomial_price 2 1 0 0 1 1 1 "call" false) :=
  duplicate_modules_agree 2 1 0 0 1 1 1 false "call" (Or.inl rfl) (by norm_num)
    (by norm_num) (by norm_num) (by norm_num)

/-- C10: `binomial_price` never returns a negative value on valid inputs:
the clamped probability lies in `[0,1]`, the discount factor is positive,
terminal payoffs are nonnegative and backward induction preserves
nonnegativity. -/
theorem binomial_price_nonneg (S K r q sigma T : ℝ) (steps : ℕ) (ot : String)
    (amer : Bool) (v : ℝ) (hS : 0 < S) (hK : 0 < K) (hs : 0 ≤ sigma)
    (hsteps : 1 ≤ steps) (hot : ot = "call" ∨ ot = "put")
    (hv : binomial_price S K r q sigma T steps ot amer = Except.ok v) :
    0 ≤ v := by
  obtain ⟨opt, hparse⟩ : ∃ opt, parse_option_type ot = Except.ok opt := by
    rcases hot with h | h <;> subst h
    · exact ⟨_, parse_option_type_call⟩
    · exact ⟨_, parse_option_type_put⟩
  rw [binomial_price_parsed _ _ _ _ _ _ _ _ _ _ hparse] at hv
  rw [if_neg (by omega : ¬ steps < 1), if_neg (not_lt.mpr hs)] at hv
  by_cases hT : T ≤ 0
  · rw [if_pos hT] at hv
    injection hv with hv
    rw [← hv]
    exact payoff_nonneg _ _ _
  · rw [if_neg hT] at hv
    simp only [crr_lattice] at hv
    by_cases hud : Real.exp (sigma * Real.sqrt (T / (steps:ℝ))) -
        1 / Real.exp (sigma * Real.sqrt (T / (steps:ℝ))) = 0
    · rw [if_pos hud] at hv
      exact absurd hv (by simp)
    · rw [if_neg hud] at hv
      injection hv with hv
      rw [← hv]
      have hp := clamp_mem_unit ((Real.exp ((r - q) * (T / (steps:ℝ))) -
        1 / Real.exp (sigma * Real.sqrt (T / (steps:ℝ)))) /
        (Real.exp (sigma * Real.sqrt (T / (steps:ℝ))) -
          1 / Real.exp (sigma * Real.sqrt (T / (steps:ℝ)))))
      exact backInduct_nonneg _ _ _ _ _ _ _ _ hp.1 hp.2 (Real.exp_pos _).le
        steps _ (termVals_nonneg _ _ _ _ _ _) 0

theorem binomial_price_nonneg_witness :
    binomial_price 2 1 0 0 0 0 1 "call" false = Except.ok 1 ∧ (0:ℝ) ≤ 1 := by
  have hv : binomial_price 2 1 0 0 0 0 1 "call" false = Except.ok 1 := by
    rw [binomial_price_parsed _ _ _ _ _ _ _ _ _ _ parse_option_type_call]
    rw [if_neg (by norm_num : ¬ (1:ℕ) < 1), if_neg (by norm_num : ¬ (0:ℝ) < 0),
      if_pos (le_refl (0:ℝ))]
    unfold payoff
    rw [if_pos rfl, max_eq_left (by norm_num : (0:ℝ) ≤ 2 - 1)]
    norm_num
  exact ⟨hv, binomial_price_nonneg 2 1 0 0 0 0 1 "call" false 1 (by norm_num)
    (by norm_num) (by norm_num) (by norm_num) (Or.inl rfl) hv⟩

/-- C2 counterexample: with a negative rate (`r = -log(5/4)`, `q = 0`,
`S=100`, `K=10`, `sigma = log 2`, `T=1`, `steps=1`) the American call is
worth `90` (early exercise at the root) while the European call is worth
`175/2`, so `american=True` and `american=False` differ even though `q=0`.
The claim's "for any sign of `r`" fails. -/
theorem binomial_american_call_premium_counterexample :
    binomial_price 100 10 (-(Real.log (5/4))) 0 (Real.log 2) 1 1 "call" true =
      Except.ok 90 ∧
    binomial_price 100 10 (-(Real.log (5/4))) 0 (Real.log 2) 1 1 "call" false =
      Except.ok (175/2) ∧
    binomial_price 100 10 (-(Real.log (5/4))) 0 (Real.log 2) 1 1 "call" true ≠
      binomial_price 100 10 (-(Real.log (5/4))) 0 (Real.log 2) 1 1 "call" false := by
  have e2 : Real.exp (Real.log 2) = 2 := Real.exp_log (by norm_num)
  have e54 : Real.exp (Real.log (5/4)) = (5/4 : ℝ) := Real.exp_log (by norm_num)
  have h40 : max (40:ℝ) 0 = 40 := max_eq_left (by norm_num)
  have h190 : max (190:ℝ) 0 = 190 := max_eq_left (by norm_num)
  have h90 : max (90:ℝ) 0 = 90 := max_eq_left (by norm_num)
  have hfin : max (175/2 : ℝ) 90 = 90 := max_eq_right (by norm_num)
  have hlog2 : ¬ Real.log 2 < 0 := not_lt.mpr (Real.log_nonneg one_le_two)
  have key : ∀ amer : Bool,
      binomial_price 100 10 (-(Real.log (5/4))) 0 (Real.log 2) 1 1 "call" amer =
        Except.ok (if amer then (90:ℝ) else 175/2) := by
    intro amer
    rw [binomial_price_parsed _ _ _ _ _ _ _ _ _ _ parse_option_type_call]
    rw [if_neg (by norm_num : ¬ (1:ℕ) < 1), if_neg hlog2,
      if_neg (by norm_num : ¬ (1:ℝ) ≤ 0)]
    cases amer <;>
      norm_num [crr_lattice, Real.sqrt_one, Real.exp_neg, e2, e54,
        backInduct, bstep, termVals, payoff, List.range_succ,
        List.getD_cons_zero, List.getD_cons_succ, h40, h190, h90, hfin]
  refine ⟨key true, key false, ?_⟩
  rw [key true, key false]
  simp only [if_true, Bool.false_eq_true, if_false]
  intro h
  injection h with h
  norm_num at h

/-- C2 amended: on a call with `q = 0`, American and European binomial
prices coincide provided additionally `r >= 0` and the risk-neutral
probability needs no clamping (`r*dt <= sigma*sqrt(dt)`, i.e.
`e^{r dt} <= u`); with a negative rate, or when the upward clamp engages,
an early-exercise premium can exist. -/
theorem binomial_american_call_no_premium (S K r sigma T : ℝ) (steps : ℕ)
    (hS : 0 < S) (hK : 0 < K) (hT : 0 < T) (hsig : 0 < sigma) (hsteps : 1 ≤ steps)
    (hr : 0 ≤ r)
    (hnc : r * (T / (steps:ℝ)) ≤ sigma * Real.sqrt (T / (steps:ℝ))) :
    binomial_price S K r 0 sigma T steps "call" true =
      binomial_price S K r 0 sigma T steps "call" false := by
  have hstepsR : (0:ℝ) < (steps:ℝ) := by
    have h : 0 < steps := by omega
    exact_mod_cast h
  have hdt : 0 < T / (steps:ℝ) := div_pos hT hstepsR
  have hsq : 0 < Real.sqrt (T / (steps:ℝ)) := Real.sqrt_pos.mpr hdt
  rw [binomial_price_parsed _ _ _ _ _ _ _ _ _ _ parse_option_type_call,
    binomial_price_parsed _ _ _ _ _ _ _ _ _ _ parse_option_type_call]
  have h1 : ¬ steps < 1 := by omega
  have h2 : ¬ sigma < 0 := not_lt.mpr hsig.le
  have h3 : ¬ T ≤ 0 := not_le.mpr hT
  rw [if_neg h1, if_neg h2, if_neg h3, if_neg h1, if_neg h2, if_neg h3]
  simp only [crr_lattice]
  set u := Real.exp (sigma * Real.sqrt (T / (steps:ℝ))) with hu
  set d := 1 / u with hd
  set E := Real.exp ((r - 0) * (T / (steps:ℝ))) with hE
  set dsc := Real.exp (-r * (T / (steps:ℝ))) with hdsc
  have hu0 : 0 < u := Real.exp_pos _
  have hu1 : 1 < u := by
    rw [hu, ← Real.exp_zero]
    exact Real.exp_lt_exp.mpr (by positivity)
  have hd0 : 0 < d := by rw [hd]; positivity
  have hd1 : d < 1 := by rw [hd, div_lt_one hu0]; exact hu1
  have hud : 0 < u - d := by linarith
  have her1 : 1 ≤ E := by
    rw [hE, ← Real.exp_zero]
    apply Real.exp_le_exp.mpr
    rw [sub_zero]
    exact mul_nonneg hr hdt.le
  have herd : E ≤ u := by
    rw [hE, hu]
    apply Real.exp_le_exp.mpr
    rw [sub_zero]
    exact hnc
  have hp0 : 0 ≤ (E - d) / (u - d) := div_nonneg (by linarith) hud.le
  have hp1 : (E - d) / (u - d) ≤ 1 := by
    rw [div_le_one hud]
    linarith
  have hgrow : (E - d) / (u - d) * u + (1 - (E - d) / (u - d)) * d = E := by
    field_simp
    ring
  have hdsc0 : 0 < dsc := Real.exp_pos _
  have hdsc1 : dsc ≤ 1 := by
    rw [hdsc, ← Real.exp_zero]
    apply Real.exp_le_exp.mpr
    have h := mul_nonneg hr hdt.le
    linarith
  have hdiscgrow : 1 ≤ dsc * ((E - d) / (u - d) * u + (1 - (E - d) / (u - d)) * d) := by
    rw [hgrow, hdsc, hE, ← Real.exp_add]
    have h : -r * (T / (steps:ℝ)) + (r - 0) * (T / (steps:ℝ)) = 0 := by ring
    rw [h, Real.exp_zero]
  rw [if_neg hud.ne', if_neg hud.ne', if_pos ⟨hp0, hp1⟩]
  rw [backInduct_amer_eq_euro dsc ((E - d) / (u - d)) S K u d hp0 hp1 hdsc0 hdsc1
    hK.le hS.le hu0.le hd0.le hdiscgrow steps (termVals S K u d OptType.call steps)
    (termVals_callDom S K u d steps)]

theorem binomial_american_call_no_premium_witness :
    binomial_price 1 1 0 0 1 1 1 "call" true =
      binomial_price 1 1 0 0 1 1 1 "call" false :=
  binomial_american_call_no_premium 1 1 0 1 1 1 (by norm_num) (by norm_num)
    (by norm_num) (by norm_num) (by norm_num) (by norm_num)
    (by norm_num [Real.sqrt_one])

end QuantPlayground
